import Mathlib

/-!
Verification of the BeachClean repository.

The repository is a set of single-file Streamlit applications.  We embed the
pure logic the claims are about:

* `src/beach.py` — the snake game: `new_food`, `step` (randomness is made
  explicit as a numeric choice parameter, mirroring `random.choice`).
* `src/data.py` — password hashing: `hash_password` / `verify_password`
  (the PBKDF2-HMAC-SHA256 library primitive is an abstract deterministic
  function parameter).
* `src/SayHello.py` — `haversine`, the great-circle distance, embedded over
  the real numbers.
* The distance-parameterized polyline motion model (`build_cumulative_table`,
  `interpolate`, `advance`) whose source file is not part of `src/`; those
  definitions are modelled from the spec and are marked as such.
-/

namespace BeachClean

/-! ## Snake game (`src/beach.py`) -/

/-- Grid cell, mirroring the `Point` dataclass of `beach.py` (row, column). -/
structure SPoint where
  r : ℤ
  c : ℤ
deriving DecidableEq, Repr

/-- The four movement directions of the snake. -/
inductive Dir
  | UP | DOWN | LEFT | RIGHT
deriving DecidableEq, Repr

/-- The `dir_map` dictionary of `step` in `beach.py`. -/
def dirDelta : Dir → SPoint
  | Dir.UP => ⟨-1, 0⟩
  | Dir.DOWN => ⟨1, 0⟩
  | Dir.LEFT => ⟨0, -1⟩
  | Dir.RIGHT => ⟨0, 1⟩

/-- The game state dictionary of `beach.py` (`st.session_state` fields used
by `step`). -/
structure SnakeState where
  grid_h : ℤ
  grid_w : ℤ
  direction : Dir
  snake : List SPoint
  food : Option SPoint
  score : ℤ
  running : Bool
  game_over : Bool
deriving Repr

/-- The free cells of the grid, in the order produced by the list
comprehension in `new_food` of `beach.py`:
`[(r, c) for r in range(grid_h) for c in range(grid_w) if (r, c) not in occupied]`. -/
def foodCandidates (grid_h grid_w : ℤ) (occupied : List (ℤ × ℤ)) : List (ℤ × ℤ) :=
  (((List.range grid_h.toNat).flatMap fun (r : ℕ) =>
    (List.range grid_w.toNat).map fun (c : ℕ) =>
      (((r : ℕ) : ℤ), ((c : ℕ) : ℤ))).filter fun rc => rc ∉ occupied)

/-- Embeds `new_food` of `beach.py`.  `random.choice(candidates)` picks one
element of the nonempty candidate list; the randomness is made explicit by
the index parameter `k`, reduced modulo the number of candidates. -/
def new_food (grid_h grid_w : ℤ) (occupied : List (ℤ × ℤ)) (k : ℕ) : Option SPoint :=
  let candidates := foodCandidates grid_h grid_w occupied
  if candidates = [] then none
  else
    let rc := candidates.getD (k % candidates.length) (0, 0)
    some ⟨rc.1, rc.2⟩

/-- The proposed new head of `step` in `beach.py`: the current head
(`snake[0]`) moved one cell in the current direction. -/
def newHead (g : SnakeState) : SPoint :=
  let drc := dirDelta g.direction
  let head := g.snake.headD ⟨0, 0⟩
  ⟨head.r + drc.r, head.c + drc.c⟩

/-- Embeds `step` of `beach.py`.  The Python function mutates the state
dictionary in place and returns it; here it returns the updated state.  `k`
is the explicit randomness used when a new food cell must be chosen. -/
def step (g : SnakeState) (k : ℕ) : SnakeState :=
  if ¬ (0 ≤ (newHead g).r ∧ (newHead g).r < g.grid_h ∧
        0 ≤ (newHead g).c ∧ (newHead g).c < g.grid_w) then
    { g with running := false, game_over := true }
  else if ((newHead g).r, (newHead g).c) ∈ g.snake.map (fun p => (p.r, p.c)) then
    { g with running := false, game_over := true }
  else
    match g.food with
    | some f =>
      if (newHead g).r = f.r ∧ (newHead g).c = f.c then
        { g with snake := newHead g :: g.snake, score := g.score + 1,
                 food := new_food g.grid_h g.grid_w
                   ((newHead g :: g.snake).map fun p => (p.r, p.c)) k }
      else
        { g with snake := (newHead g :: g.snake).dropLast }
    | none => { g with snake := (newHead g :: g.snake).dropLast }

/-! ## Password hashing (`src/data.py`) -/

/-- Embeds `hash_password` of `data.py`, parameterized by the PBKDF2-HMAC-SHA256
primitive `pbkdf2` (a deterministic pure library function of the password and
the salt; the iteration count 200000 is fixed inside it) and by the fresh
salt `fresh` that `secrets.token_hex(16)` would produce when no salt is
supplied.  Returns the `(salt, hash)` pair. -/
def hash_password (pbkdf2 : String → String → String)
    (password : String) (salt : Option String) (fresh : String) : String × String :=
  let s := salt.getD fresh
  (s, pbkdf2 password s)

/-- Embeds `secrets.compare_digest` on hex strings: a constant-time
comparison, semantically string equality. -/
def compare_digest (a b : String) : Bool := a == b

/-- Embeds `verify_password` of `data.py`: recompute the hash with the
stored salt and compare. -/
def verify_password (pbkdf2 : String → String → String)
    (password salt expected_hash : String) : Bool :=
  compare_digest (hash_password pbkdf2 password (some salt) salt).2 expected_hash

/-! ## Great-circle distance (`src/SayHello.py`) -/

/-- Embeds `math.radians`: degrees to radians. -/
noncomputable def radians (x : ℝ) : ℝ := x * Real.pi / 180

/-- Embeds `math.atan2 y x`: the two-argument arctangent (sign conventions
of the C library function that Python exposes, ignoring signed zeros). -/
noncomputable def atan2 (y x : ℝ) : ℝ :=
  if 0 < x then Real.arctan (y / x)
  else if x < 0 then
    (if 0 ≤ y then Real.arctan (y / x) + Real.pi else Real.arctan (y / x) - Real.pi)
  else
    (if 0 < y then Real.pi / 2 else if y < 0 then -(Real.pi / 2) else 0)

/-- Embeds `haversine` of `SayHello.py`: great-circle distance in meters
between `(lat1, lon1)` and `(lat2, lon2)` on a sphere of radius
6 371 000 m. -/
noncomputable def haversine (lat1 lon1 lat2 lon2 : ℝ) : ℝ :=
  let R : ℝ := 6371000
  let phi1 := radians lat1
  let phi2 := radians lat2
  let dphi := radians (lat2 - lat1)
  let dlambda := radians (lon2 - lon1)
  let a := Real.sin (dphi / 2) ^ 2 +
    Real.cos phi1 * Real.cos phi2 * Real.sin (dlambda / 2) ^ 2
  2 * R * atan2 (Real.sqrt a) (Real.sqrt (1 - a))

/-! ## Polyline motion model (spec §4.1)

The car-traffic source file is not part of `src/`; the following definitions
are modelled from the spec, over exact rationals (the Python source computes
with floating point).  `segment_length` is kept abstract as a distance
function parameter `d` — the spec fixes it to the haversine distance, which
is not rational-computable; every property proved below holds for any
distance function satisfying the stated hypotheses. -/

/-- A geographic point of the motion model: (longitude, latitude). -/
abbrev GPoint := ℚ × ℚ

/-- Modelled from the spec: the tail of the cumulative-distance table.
`acc` is the running distance to the current vertex `p`; each further vertex
`q` appends `acc + d p q`. -/
def cumAux (d : GPoint → GPoint → ℚ) (acc : ℚ) : GPoint → List GPoint → List ℚ
  | _, [] => []
  | p, q :: qs => (acc + d p q) :: cumAux d (acc + d p q) q qs

/-- Modelled from the spec: `build_cumulative_table(path)` — entry `i` is the
sum of `segment_length` (here the abstract `d`) over all segments before
vertex `i`; entry 0 is 0; same length as the path.  (The source file holding
this operation is absent from `src/`.) -/
def build_cumulative_table (d : GPoint → GPoint → ℚ) : List GPoint → List ℚ
  | [] => []
  | p :: ps => 0 :: cumAux d 0 p ps

/-- The path's total length: the last table entry (0 for an empty table). -/
def totalLength (table : List ℚ) : ℚ := table.getLastD 0

/-- Planar linear interpolation in degree-space, coordinate by coordinate. -/
def lerp (a b : GPoint) (t : ℚ) : GPoint :=
  (a.1 + t * (b.1 - a.1), a.2 + t * (b.2 - a.2))

/-- Modelled from the spec: the segment-locating linear scan together with
the fractional interpolation.  Walks the path and the table in step; at the
first segment `[i, i+1]` with `s ≤ table[i+1]` it computes
`t = (s - table[i]) / (table[i+1] - table[i])`, treating `t = 0` when
`table[i+1] == table[i]` (the degenerate-segment guard), and linearly
interpolates the two vertices. -/
def interpAux : List GPoint → List ℚ → ℚ → GPoint
  | p :: q :: ps, t0 :: t1 :: ts, s =>
    if s ≤ t1 then
      lerp p q (if t1 = t0 then 0 else (s - t0) / (t1 - t0))
    else interpAux (q :: ps) (t1 :: ts) s
  | p :: _, _, _ => p
  | [], _, _ => (0, 0)

/-- Modelled from the spec: `interpolate(path, table, s)` — clamp to the
first point when `s ≤ 0`, to the last point when `s ≥ total length`,
otherwise locate the segment containing `s` and interpolate linearly. -/
def interpolate (path : List GPoint) (table : List ℚ) (s : ℚ) : GPoint :=
  if s ≤ 0 then path.headD (0, 0)
  else if totalLength table ≤ s then path.getLastD (0, 0)
  else interpAux path table s

/-- The list of segment lengths of a path under the distance function `d`:
one entry per consecutive pair of vertices. -/
def segLengths (d : GPoint → GPoint → ℚ) (path : List GPoint) : List ℚ :=
  (path.zip path.tail).map fun pq => d pq.1 pq.2

/-- A point is a valid point on the path when it lies on one of the path's
segments: it is the linear interpolation of two consecutive vertices with a
fraction in `[0, 1]`. -/
def ValidPoint (path : List GPoint) (pt : GPoint) : Prop :=
  ∃ i t, i + 1 < path.length ∧ 0 ≤ t ∧ t ≤ 1 ∧
    pt = lerp (path.getD i (0, 0)) (path.getD (i + 1) (0, 0)) t

/-- Reduction modulo the total path length (real-valued `fmod` towards
negative infinity, as the spec's wraparound in both directions requires):
`qmod x L = x - L * ⌊x / L⌋`. -/
def qmod (x L : ℚ) : ℚ := x - L * ⌊x / L⌋

/-- Modelled from the spec: a `MovingEntity` — a path with its
cumulative-distance table, a speed (m/s), a signed direction (+1 or -1), an
initial offset (meters along the path) and a start timestamp. -/
structure MovingEntity where
  path : List GPoint
  table : List ℚ
  speed : ℚ
  direction : ℤ
  offset : ℚ
  start : ℚ
deriving Repr

/-- Modelled from the spec: `advance(entity, now)` — elapsed seconds
`dt = now - start`, raw displacement `offset + direction * speed * dt`,
reduced modulo the total path length, then interpolated. -/
def advance (e : MovingEntity) (now : ℚ) : GPoint :=
  let dt := now - e.start
  let raw := e.offset + (e.direction : ℚ) * e.speed * dt
  interpolate e.path e.table (qmod raw (totalLength e.table))

/-! ## Helper lemmas: the cumulative-distance table -/

theorem cumAux_length (d : GPoint → GPoint → ℚ) (acc : ℚ) (p : GPoint)
    (ps : List GPoint) : (cumAux d acc p ps).length = ps.length := by
  induction ps generalizing acc p with
  | nil => rfl
  | cons q qs ih => simp [cumAux, ih]

theorem build_cumulative_table_length (d : GPoint → GPoint → ℚ)
    (path : List GPoint) : (build_cumulative_table d path).length = path.length := by
  cases path with
  | nil => rfl
  | cons p ps => simp [build_cumulative_table, cumAux_length]

theorem cumAux_chain (d : GPoint → GPoint → ℚ) (hd : ∀ p q, 0 ≤ d p q)
    (acc : ℚ) (p : GPoint) (ps : List GPoint) :
    List.Chain (· ≤ ·) acc (cumAux d acc p ps) := by
  induction ps generalizing acc p with
  | nil => exact List.Chain.nil
  | cons q qs ih =>
    exact List.Chain.cons (le_add_of_nonneg_right (hd p q)) (ih (acc + d p q) q)

theorem build_cumulative_table_chain (d : GPoint → GPoint → ℚ)
    (hd : ∀ p q, 0 ≤ d p q) (path : List GPoint) :
    List.Chain' (· ≤ ·) (build_cumulative_table d path) := by
  cases path with
  | nil => exact List.chain'_nil
  | cons p ps => exact cumAux_chain d hd 0 p ps

theorem cumAux_getElem (d : GPoint → GPoint → ℚ) (acc : ℚ) (p : GPoint)
    (ps : List GPoint) (i : ℕ) :
    (cumAux d acc p ps)[i]? =
      if i < ps.length then some (acc + ((segLengths d (p :: ps)).take (i + 1)).sum)
      else none := by
  induction ps generalizing acc p i with
  | nil => simp [cumAux]
  | cons q qs ih =>
    cases i with
    | zero => simp [cumAux, segLengths]
    | succ j =>
      have := ih (acc + d p q) q j
      simp only [cumAux, List.getElem?_cons_succ, this]
      by_cases hj : j < qs.length
      · simp only [if_pos hj, List.length_cons, if_pos (Nat.succ_lt_succ hj)]
        congr 1
        have hseg : segLengths d (p :: q :: qs) = d p q :: segLengths d (q :: qs) := by
          simp [segLengths]
        rw [hseg, List.take_succ_cons, List.sum_cons]
        ring
      · simp only [if_neg hj, List.length_cons]
        rw [if_neg]
        omega

theorem build_cumulative_table_getElem (d : GPoint → GPoint → ℚ)
    (path : List GPoint) (i : ℕ) (hi : i < path.length) :
    (build_cumulative_table d path)[i]? =
      some (((segLengths d path).take i).sum) := by
  cases path with
  | nil => simp at hi
  | cons p ps =>
    cases i with
    | zero => simp [build_cumulative_table]
    | succ j =>
      simp only [build_cumulative_table, List.getElem?_cons_succ]
      rw [cumAux_getElem, if_pos (by simpa using hi)]
      simp

theorem cumAux_getLastD (d : GPoint → GPoint → ℚ) (acc : ℚ) (p : GPoint)
    (ps : List GPoint) (dflt : ℚ) :
    (cumAux d acc p ps).getLastD dflt =
      if ps = [] then dflt else acc + (segLengths d (p :: ps)).sum := by
  induction ps generalizing acc p dflt with
  | nil => simp [cumAux]
  | cons q qs ih =>
    simp only [cumAux, List.getLastD_cons, ih (acc + d p q) q]
    by_cases hqs : qs = []
    · subst hqs; simp [segLengths]
    · rw [if_neg hqs, if_neg (by simp)]
      have hseg : segLengths d (p :: q :: qs) = d p q :: segLengths d (q :: qs) := by
        simp [segLengths]
      rw [hseg, List.sum_cons]
      ring

theorem totalLength_build (d : GPoint → GPoint → ℚ) (p : GPoint)
    (ps : List GPoint) (hps : ps ≠ []) :
    totalLength (build_cumulative_table d (p :: ps)) = (segLengths d (p :: ps)).sum := by
  simp only [totalLength, build_cumulative_table, List.getLastD_cons]
  rw [cumAux_getLastD, if_neg hps, zero_add]

/-! ## Helper lemmas: interpolation -/

theorem lerp_zero (a b : GPoint) : lerp a b 0 = a := by
  simp [lerp]

theorem lerp_one (a b : GPoint) : lerp a b 1 = b := by
  simp [lerp]

theorem getLastD_congr {α : Type} (l : List α) (h : l ≠ []) (d1 d2 : α) :
    l.getLastD d1 = l.getLastD d2 := by
  cases l with
  | nil => exact absurd rfl h
  | cons a t => rfl

theorem interpAux_valid (s : ℚ) (path : List GPoint) :
    ∀ (table : List ℚ), path.length = table.length → 2 ≤ path.length →
    List.Chain' (· ≤ ·) table → table.headD 0 ≤ s → s ≤ table.getLastD 0 →
    ValidPoint path (interpAux path table s) := by
  induction path with
  | nil => intro table hlen h2; simp at h2
  | cons p rest ih =>
    intro table hlen h2 hchain hlo hhi
    cases rest with
    | nil => simp at h2
    | cons q ps =>
      match table, hlen with
      | t0 :: t1 :: ts, hlen =>
        rw [List.chain'_cons] at hchain
        obtain ⟨h01, hchain'⟩ := hchain
        by_cases hs : s ≤ t1
        · refine ⟨0, if t1 = t0 then 0 else (s - t0) / (t1 - t0), by simp, ?_, ?_, ?_⟩
          · by_cases he : t1 = t0
            · simp [he]
            · rw [if_neg he]
              have hlt : t0 < t1 := lt_of_le_of_ne h01 (fun h => he h.symm)
              exact div_nonneg (by simpa using hlo) (by linarith)
          · by_cases he : t1 = t0
            · simp [he]
            · rw [if_neg he]
              have hlt : t0 < t1 := lt_of_le_of_ne h01 (fun h => he h.symm)
              rw [div_le_one (by linarith)]
              linarith
          · simp only [interpAux, if_pos hs, List.getD_cons_zero, List.getD_cons_succ]
        · cases ps with
          | nil =>
            exfalso
            have hts : ts = [] := by
              cases ts with
              | nil => rfl
              | cons u us => simp at hlen
            subst hts
            exact hs (by simpa using hhi)
          | cons r rs =>
            have hstep : interpAux (p :: q :: r :: rs) (t0 :: t1 :: ts) s =
                interpAux (q :: r :: rs) (t1 :: ts) s := by
              simp only [interpAux, if_neg hs]
            rw [hstep]
            have hts : ts ≠ [] := by
              intro h; subst h; simp at hlen
            obtain ⟨i, t, hi, ht0, ht1, hpt⟩ :=
              ih (t1 :: ts) (by simpa using hlen) (by simp) hchain'
                (by simpa using le_of_lt (lt_of_not_le hs))
                (by
                  have : (t0 :: t1 :: ts).getLastD 0 = (t1 :: ts).getLastD 0 := by
                    rw [List.getLastD_cons]
                    exact getLastD_congr (t1 :: ts) (by simp) t0 0
                  rw [← this]
                  exact hhi)
            exact ⟨i + 1, t, by simpa using Nat.succ_lt_succ hi, ht0, ht1, by
              simpa [List.getD_cons_succ] using hpt⟩

/-- The point returned by `interpolate` always lies on the path, provided
the table matches the path and the distance function is non-negative. -/
theorem interpolate_valid (d : GPoint → GPoint → ℚ) (hd : ∀ p q, 0 ≤ d p q)
    (path : List GPoint) (h2 : 2 ≤ path.length) (s : ℚ) :
    ValidPoint path (interpolate path (build_cumulative_table d path) s) := by
  match path, h2 with
  | p :: q :: ps, _ =>
    unfold interpolate
    by_cases hs : s ≤ 0
    · rw [if_pos hs]
      exact ⟨0, 0, by simp, le_refl 0, zero_le_one, by
        simp [lerp_zero, List.getD_cons_zero]⟩
    · rw [if_neg hs]
      by_cases hL : totalLength (build_cumulative_table d (p :: q :: ps)) ≤ s
      · rw [if_pos hL]
        refine ⟨(p :: q :: ps).length - 2, 1, by simp, zero_le_one, le_refl 1, ?_⟩
        rw [lerp_one]
        have hlast : (p :: q :: ps).getLastD (0, 0) =
            (p :: q :: ps).getD ((p :: q :: ps).length - 1) (0, 0) := by
          rw [List.getLastD_eq_getLast?, List.getLast?_eq_getElem?,
            List.getD_eq_getElem?_getD]
        rw [hlast]
        congr 1
      · rw [if_neg hL]
        apply interpAux_valid s (p :: q :: ps) (build_cumulative_table d (p :: q :: ps))
          (build_cumulative_table_length d (p :: q :: ps)).symm (by simp)
          (build_cumulative_table_chain d hd (p :: q :: ps))
        · simp [build_cumulative_table]
          exact le_of_lt (lt_of_not_le hs)
        · exact le_of_lt (lt_of_not_le hL)

/-! ## Helper lemmas: modular reduction -/

theorem qmod_add_int_mul (x L : ℚ) (hL : L ≠ 0) (k : ℤ) :
    qmod (x + k * L) L = qmod x L := by
  unfold qmod
  have hdiv : (x + k * L) / L = x / L + k := by
    field_simp
  rw [hdiv, Int.floor_add_int]
  push_cast
  ring

theorem qmod_eq_self (x L : ℚ) (h0 : 0 ≤ x) (h1 : x < L) : qmod x L = x := by
  have hLpos : 0 < L := lt_of_le_of_lt h0 h1
  unfold qmod
  have : ⌊x / L⌋ = 0 := by
    rw [Int.floor_eq_zero_iff]
    constructor
    · exact div_nonneg h0 (le_of_lt hLpos)
    · rw [div_lt_one hLpos]; exact h1
  rw [this]
  simp

/-! ## The claims -/

/-- C1: for every MovingEntity whose path has total length `L` and positive
speed, `advance(entity, t)` and `advance(entity, t + L/speed)` return the
same point (the model computes over exact rationals, so the equality is
exact): the displacement `offset + direction * speed * dt` is reduced modulo
the total path length before interpolation, so motion loops in both
directions. -/
theorem advance_loops (e : MovingEntity) (hspeed : 0 < e.speed)
    (hL : 0 < totalLength e.table) (t : ℚ) :
    advance e t = advance e (t + totalLength e.table / e.speed) := by
  show interpolate e.path e.table
      (qmod (e.offset + (e.direction : ℚ) * e.speed * (t - e.start)) (totalLength e.table)) =
    interpolate e.path e.table
      (qmod (e.offset + (e.direction : ℚ) * e.speed *
        (t + totalLength e.table / e.speed - e.start)) (totalLength e.table))
  have hs : e.speed ≠ 0 := ne_of_gt hspeed
  have hraw : e.offset + (e.direction : ℚ) * e.speed *
      (t + totalLength e.table / e.speed - e.start) =
      e.offset + (e.direction : ℚ) * e.speed * (t - e.start) +
        (e.direction : ℤ) * totalLength e.table := by
    field_simp
    ring
  rw [hraw, qmod_add_int_mul _ _ (ne_of_gt hL)]

theorem advance_loops_witness :
    (0 : ℚ) < 1 ∧
    0 < totalLength ([0, 5] : List ℚ) ∧
    advance ⟨[(0, 0), (0, 1)], [0, 5], 1, 1, 0, 0⟩ 2 =
      advance ⟨[(0, 0), (0, 1)], [0, 5], 1, 1, 0, 0⟩ (2 + totalLength ([0, 5] : List ℚ) / 1) :=
  ⟨by norm_num, by decide,
    advance_loops ⟨[(0, 0), (0, 1)], [0, 5], 1, 1, 0, 0⟩ (by norm_num) (by decide) 2⟩

/-- C2: for every path `P` with at least 2 points (and a non-negative
distance function, as the haversine distance is), the cumulative table has
the same length as `P`, its entry 0 is 0, its entry `i` is the sum of the
segment lengths of all segments before vertex `i`, and it is monotonically
non-decreasing. -/
theorem build_cumulative_table_spec (d : GPoint → GPoint → ℚ)
    (hd : ∀ p q, 0 ≤ d p q) (P : List GPoint) (h2 : 2 ≤ P.length) :
    (build_cumulative_table d P).length = P.length ∧
    (build_cumulative_table d P)[0]? = some 0 ∧
    (∀ i, i < P.length →
      (build_cumulative_table d P)[i]? = some (((segLengths d P).take i).sum)) ∧
    List.Pairwise (· ≤ ·) (build_cumulative_table d P) := by
  refine ⟨build_cumulative_table_length d P, ?_, ?_, ?_⟩
  · have := build_cumulative_table_getElem d P 0 (by omega)
    simpa using this
  · exact fun i hi => build_cumulative_table_getElem d P i hi
  · exact List.chain'_iff_pairwise.mp (build_cumulative_table_chain d hd P)

theorem build_cumulative_table_spec_witness :
    (∀ p q : GPoint, 0 ≤ (fun _ _ => (1 : ℚ)) p q) ∧
    2 ≤ ([((0 : ℚ), (0 : ℚ)), (0, 1), (0, 2)] : List GPoint).length ∧
    ((build_cumulative_table (fun _ _ => (1 : ℚ))
        [((0 : ℚ), (0 : ℚ)), (0, 1), (0, 2)]).length =
      ([((0 : ℚ), (0 : ℚ)), (0, 1), (0, 2)] : List GPoint).length ∧
    (build_cumulative_table (fun _ _ => (1 : ℚ))
        [((0 : ℚ), (0 : ℚ)), (0, 1), (0, 2)])[0]? = some 0 ∧
    (∀ i, i < ([((0 : ℚ), (0 : ℚ)), (0, 1), (0, 2)] : List GPoint).length →
      (build_cumulative_table (fun _ _ => (1 : ℚ))
          [((0 : ℚ), (0 : ℚ)), (0, 1), (0, 2)])[i]? =
        some (((segLengths (fun _ _ => (1 : ℚ))
          [((0 : ℚ), (0 : ℚ)), (0, 1), (0, 2)]).take i).sum)) ∧
    List.Pairwise (· ≤ ·) (build_cumulative_table (fun _ _ => (1 : ℚ))
      [((0 : ℚ), (0 : ℚ)), (0, 1), (0, 2)])) :=
  ⟨fun _ _ => zero_le_one, by decide,
    build_cumulative_table_spec (fun _ _ => (1 : ℚ)) (fun _ _ => zero_le_one)
      [((0 : ℚ), (0 : ℚ)), (0, 1), (0, 2)] (by decide)⟩

/-- C3: for every path with at least 2 points and its matching
cumulative-distance table of positive total length `L`, `interpolate`
returns exactly the path's first point whenever `s ≤ 0` and exactly the
path's last point whenever `s ≥ L`. -/
theorem interpolate_endpoints (d : GPoint → GPoint → ℚ) (p : GPoint)
    (ps : List GPoint) (_hps : ps ≠ []) (table : List ℚ)
    (_htable : table = build_cumulative_table d (p :: ps))
    (hL : 0 < totalLength table) :
    (∀ s, s ≤ 0 → interpolate (p :: ps) table s = p) ∧
    (∀ s, totalLength table ≤ s →
      interpolate (p :: ps) table s = (p :: ps).getLast (List.cons_ne_nil p ps)) := by
  constructor
  · intro s hs
    unfold interpolate
    rw [if_pos hs]
    rfl
  · intro s hLs
    unfold interpolate
    rw [if_neg (by linarith), if_pos hLs]
    rfl

theorem interpolate_endpoints_witness :
    (([((0 : ℚ), (1 : ℚ))] : List GPoint) ≠ []) ∧
    (([0, 1] : List ℚ) =
      build_cumulative_table (fun _ _ => (1 : ℚ)) [((0 : ℚ), (0 : ℚ)), (0, 1)]) ∧
    (0 : ℚ) < totalLength ([0, 1] : List ℚ) ∧
    ((∀ s, s ≤ 0 →
        interpolate [((0 : ℚ), (0 : ℚ)), (0, 1)] ([0, 1] : List ℚ) s = ((0 : ℚ), (0 : ℚ))) ∧
      (∀ s, totalLength ([0, 1] : List ℚ) ≤ s →
        interpolate [((0 : ℚ), (0 : ℚ)), (0, 1)] ([0, 1] : List ℚ) s =
          ([((0 : ℚ), (0 : ℚ)), (0, 1)]).getLast
            (List.cons_ne_nil ((0 : ℚ), (0 : ℚ)) [(0, 1)]))) :=
  ⟨by decide, by norm_num [build_cumulative_table, cumAux], by decide,
    interpolate_endpoints (fun _ _ => (1 : ℚ)) ((0 : ℚ), (0 : ℚ)) [(0, 1)]
      (by decide) [0, 1] (by norm_num [build_cumulative_table, cumAux]) (by decide)⟩

/-- C5: `interpolate` never divides by zero.  When the located segment is
degenerate (`table[i+1] == table[i]`) the fraction is taken to be 0 and the
vertex point is returned; and for a 3-point path whose two identical points
are consecutive, `build_cumulative_table` is total (it produces the explicit
table below) and `interpolate` at the duplicated distance returns the
duplicated point. -/
theorem degenerate_segment_guard (d : GPoint → GPoint → ℚ) (p q : GPoint)
    (h0 : d q q = 0) (hpq : 0 < d p q) :
    build_cumulative_table d [p, q, q] = [0, d p q, d p q] ∧
    interpolate [p, q, q] (build_cumulative_table d [p, q, q]) (d p q) = q ∧
    (∀ (p' q' : GPoint) (ps : List GPoint) (t0 t1 : ℚ) (ts : List ℚ) (s : ℚ),
      s ≤ t1 → t1 = t0 →
      interpAux (p' :: q' :: ps) (t0 :: t1 :: ts) s = p') := by
  have htab : build_cumulative_table d [p, q, q] = [0, d p q, d p q] := by
    simp [build_cumulative_table, cumAux, h0]
  refine ⟨htab, ?_, ?_⟩
  · rw [htab]
    unfold interpolate
    rw [if_neg (by linarith), if_pos (by simp [totalLength])]
    rfl
  · intro p' q' ps t0 t1 ts s hst he
    simp only [interpAux, if_pos hst, if_pos he, lerp_zero]

theorem degenerate_segment_guard_witness :
    ((fun (a b : GPoint) => if a = b then (0 : ℚ) else 1)
        ((0 : ℚ), (1 : ℚ)) ((0 : ℚ), (1 : ℚ)) = 0) ∧
    (0 : ℚ) < (fun (a b : GPoint) => if a = b then (0 : ℚ) else 1)
        ((0 : ℚ), (0 : ℚ)) ((0 : ℚ), (1 : ℚ)) ∧
    interpolate [((0 : ℚ), (0 : ℚ)), (0, 1), (0, 1)]
      (build_cumulative_table
        (fun (a b : GPoint) => if a = b then (0 : ℚ) else 1)
        [((0 : ℚ), (0 : ℚ)), (0, 1), (0, 1)])
      ((fun (a b : GPoint) => if a = b then (0 : ℚ) else 1)
        ((0 : ℚ), (0 : ℚ)) ((0 : ℚ), (1 : ℚ))) = ((0 : ℚ), (1 : ℚ)) :=
  ⟨by decide, by decide,
    (degenerate_segment_guard (fun (a b : GPoint) => if a = b then (0 : ℚ) else 1)
      ((0 : ℚ), (0 : ℚ)) ((0 : ℚ), (1 : ℚ)) (by decide) (by decide)).2.1⟩

/-- C6: `advance` is deterministic and stateless: two calls with the same
`(entity, now)` return identical output, and the position is recomputed from
the original start time — rebasing the entity at any intermediate time `t1`
(folding the elapsed displacement into the offset) does not change the
position reported at any later query time `t2`, so no drift accumulates. -/
theorem advance_deterministic (e : MovingEntity) (hL : 0 < totalLength e.table) :
    (∀ now : ℚ, advance e now = advance e now) ∧
    (∀ t1 t2 : ℚ,
      advance { e with
                start := t1,
                offset := qmod
                  (e.offset + (e.direction : ℚ) * e.speed * (t1 - e.start))
                  (totalLength e.table) } t2 = advance e t2) := by
  refine ⟨fun _ => rfl, fun t1 t2 => ?_⟩
  show interpolate e.path e.table
      (qmod (qmod (e.offset + (e.direction : ℚ) * e.speed * (t1 - e.start))
          (totalLength e.table) +
        (e.direction : ℚ) * e.speed * (t2 - t1)) (totalLength e.table)) =
    interpolate e.path e.table
      (qmod (e.offset + (e.direction : ℚ) * e.speed * (t2 - e.start))
        (totalLength e.table))
  congr 1
  have hsplit : qmod (e.offset + (e.direction : ℚ) * e.speed * (t1 - e.start))
        (totalLength e.table) + (e.direction : ℚ) * e.speed * (t2 - t1) =
      (e.offset + (e.direction : ℚ) * e.speed * (t2 - e.start)) +
        (-⌊(e.offset + (e.direction : ℚ) * e.speed * (t1 - e.start)) /
            totalLength e.table⌋ : ℤ) * totalLength e.table := by
    unfold qmod
    push_cast
    ring
  rw [hsplit, qmod_add_int_mul _ _ (ne_of_gt hL)]

theorem advance_deterministic_witness :
    (0 : ℚ) < totalLength ([0, 5] : List ℚ) ∧
    ((∀ now : ℚ,
        advance ⟨[(0, 0), (0, 1)], [0, 5], 1, 1, 0, 0⟩ now =
          advance ⟨[(0, 0), (0, 1)], [0, 5], 1, 1, 0, 0⟩ now) ∧
      (∀ t1 t2 : ℚ,
        advance { (⟨[(0, 0), (0, 1)], [0, 5], 1, 1, 0, 0⟩ : MovingEntity) with
                  start := t1,
                  offset := qmod ((0 : ℚ) + ((1 : ℤ) : ℚ) * 1 * (t1 - 0))
                    (totalLength ([0, 5] : List ℚ)) } t2 =
          advance ⟨[(0, 0), (0, 1)], [0, 5], 1, 1, 0, 0⟩ t2)) :=
  ⟨by decide, advance_deterministic ⟨[(0, 0), (0, 1)], [0, 5], 1, 1, 0, 0⟩ (by decide)⟩

/-- C7: an entity with speed 0 stays fixed at the point of the initial
offset for every query time (no division by zero occurs — the model is
total); and more generally, for every query time, `advance` returns a valid
point on the path (a point on one of its segments). -/
theorem advance_speed_zero_and_valid (d : GPoint → GPoint → ℚ)
    (hd : ∀ p q, 0 ≤ d p q) (e : MovingEntity)
    (htable : e.table = build_cumulative_table d e.path)
    (h2 : 2 ≤ e.path.length)
    (hoff0 : 0 ≤ e.offset) (hoffL : e.offset < totalLength e.table) :
    (e.speed = 0 → ∀ now now' : ℚ, advance e now = advance e now') ∧
    (e.speed = 0 → ∀ now : ℚ, advance e now = interpolate e.path e.table e.offset) ∧
    (∀ now : ℚ, ValidPoint e.path (advance e now)) := by
  have key : e.speed = 0 → ∀ now : ℚ,
      advance e now = interpolate e.path e.table e.offset := by
    intro h0 now
    show interpolate e.path e.table
        (qmod (e.offset + (e.direction : ℚ) * e.speed * (now - e.start))
          (totalLength e.table)) = interpolate e.path e.table e.offset
    rw [h0, mul_zero, zero_mul, add_zero, qmod_eq_self e.offset _ hoff0 hoffL]
  refine ⟨fun h0 now now' => (key h0 now).trans (key h0 now').symm, key, ?_⟩
  intro now
  show ValidPoint e.path (interpolate e.path e.table
    (qmod (e.offset + (e.direction : ℚ) * e.speed * (now - e.start))
      (totalLength e.table)))
  rw [htable]
  exact interpolate_valid d hd e.path h2 _

theorem advance_speed_zero_and_valid_witness :
    (∀ p q : GPoint, 0 ≤ (fun _ _ => (1 : ℚ)) p q) ∧
    (([0, 1] : List ℚ) =
      build_cumulative_table (fun _ _ => (1 : ℚ)) [((0 : ℚ), (0 : ℚ)), (0, 1)]) ∧
    2 ≤ ([((0 : ℚ), (0 : ℚ)), (0, 1)] : List GPoint).length ∧
    (0 : ℚ) ≤ 0 ∧ (0 : ℚ) < totalLength ([0, 1] : List ℚ) ∧
    (((⟨[(0, 0), (0, 1)], [0, 1], 0, 1, 0, 0⟩ : MovingEntity).speed = 0 →
        ∀ now now' : ℚ,
          advance ⟨[(0, 0), (0, 1)], [0, 1], 0, 1, 0, 0⟩ now =
            advance ⟨[(0, 0), (0, 1)], [0, 1], 0, 1, 0, 0⟩ now') ∧
      ((⟨[(0, 0), (0, 1)], [0, 1], 0, 1, 0, 0⟩ : MovingEntity).speed = 0 →
        ∀ now : ℚ,
          advance ⟨[(0, 0), (0, 1)], [0, 1], 0, 1, 0, 0⟩ now =
            interpolate [((0 : ℚ), (0 : ℚ)), (0, 1)] ([0, 1] : List ℚ) 0) ∧
      (∀ now : ℚ,
        ValidPoint [((0 : ℚ), (0 : ℚ)), (0, 1)]
          (advance ⟨[(0, 0), (0, 1)], [0, 1], 0, 1, 0, 0⟩ now))) :=
  ⟨fun _ _ => zero_le_one, by norm_num [build_cumulative_table, cumAux], by decide,
    le_refl 0, by decide,
    advance_speed_zero_and_valid (fun _ _ => (1 : ℚ)) (fun _ _ => zero_le_one)
      ⟨[(0, 0), (0, 1)], [0, 1], 0, 1, 0, 0⟩
      (by norm_num [build_cumulative_table, cumAux]) (by decide)
      (le_refl 0) (by decide)⟩

theorem arctan_nonneg_of_nonneg (t : ℝ) (ht : 0 ≤ t) : 0 ≤ Real.arctan t := by
  have h := Real.arctan_strictMono.monotone ht
  rwa [Real.arctan_zero] at h

theorem atan2_nonneg (y x : ℝ) (hy : 0 ≤ y) (hx : 0 ≤ x) : 0 ≤ atan2 y x := by
  unfold atan2
  by_cases h1 : 0 < x
  · rw [if_pos h1]
    exact arctan_nonneg_of_nonneg _ (div_nonneg hy (le_of_lt h1))
  · rw [if_neg h1, if_neg (not_lt.mpr hx)]
    by_cases h2 : 0 < y
    · rw [if_pos h2]
      linarith [Real.pi_pos]
    · rw [if_neg h2, if_neg (not_lt.mpr hy)]


/-- C4: the haversine great-circle distance of SayHello.py is non-negative
for every pair of latitude/longitude inputs, and is exactly 0 for identical
points. -/
theorem haversine_nonneg_and_refl :
    (∀ lat1 lon1 lat2 lon2 : ℝ, 0 ≤ haversine lat1 lon1 lat2 lon2) ∧
    (∀ lat lon : ℝ, haversine lat lon lat lon = 0) := by
  constructor
  · intro lat1 lon1 lat2 lon2
    show 0 ≤ 2 * (6371000 : ℝ) * atan2 (Real.sqrt _) (Real.sqrt _)
    exact mul_nonneg (by norm_num)
      (atan2_nonneg _ _ (Real.sqrt_nonneg _) (Real.sqrt_nonneg _))
  · intro lat lon
    simp [haversine, radians, atan2, Real.sqrt_one]

/-- C8: `step` is atomic on game over — whenever the proposed new head lies
outside the grid or on a cell already occupied by the snake, `step` sets
`game_over` to true and `running` to false and leaves the snake body, score
and food unchanged (the result is exactly the input state with only those
two flags changed). -/
theorem step_game_over (g : SnakeState) (k : ℕ)
    (h : ¬ (0 ≤ (newHead g).r ∧ (newHead g).r < g.grid_h ∧
            0 ≤ (newHead g).c ∧ (newHead g).c < g.grid_w) ∨
      ((newHead g).r, (newHead g).c) ∈ g.snake.map (fun p => (p.r, p.c))) :
    step g k = { g with running := false, game_over := true } := by
  unfold step
  rcases h with h | h
  · rw [if_pos h]
  · by_cases hin : ¬ (0 ≤ (newHead g).r ∧ (newHead g).r < g.grid_h ∧
        0 ≤ (newHead g).c ∧ (newHead g).c < g.grid_w)
    · rw [if_pos hin]
    · rw [if_neg hin, if_pos h]

theorem step_game_over_witness :
    (¬ (0 ≤ (newHead ⟨1, 1, Dir.RIGHT, [⟨0, 0⟩], none, 0, true, false⟩).r ∧
        (newHead ⟨1, 1, Dir.RIGHT, [⟨0, 0⟩], none, 0, true, false⟩).r < (1 : ℤ) ∧
        0 ≤ (newHead ⟨1, 1, Dir.RIGHT, [⟨0, 0⟩], none, 0, true, false⟩).c ∧
        (newHead ⟨1, 1, Dir.RIGHT, [⟨0, 0⟩], none, 0, true, false⟩).c < (1 : ℤ)) ∨
      ((newHead ⟨1, 1, Dir.RIGHT, [⟨0, 0⟩], none, 0, true, false⟩).r,
        (newHead ⟨1, 1, Dir.RIGHT, [⟨0, 0⟩], none, 0, true, false⟩).c) ∈
        ([⟨0, 0⟩] : List SPoint).map (fun p => (p.r, p.c))) ∧
    step ⟨1, 1, Dir.RIGHT, [⟨0, 0⟩], none, 0, true, false⟩ 0 =
      { (⟨1, 1, Dir.RIGHT, [⟨0, 0⟩], none, 0, true, false⟩ : SnakeState) with
        running := false, game_over := true } :=
  ⟨Or.inl (by decide),
    step_game_over ⟨1, 1, Dir.RIGHT, [⟨0, 0⟩], none, 0, true, false⟩ 0
      (Or.inl (by decide))⟩

/-- C9: password hashing round-trips — if `hash_password(password)` returns
`(salt, pw_hash)`, then `verify_password(password, salt, pw_hash)` returns
true, for every deterministic PBKDF2 primitive and every generated salt. -/
theorem hash_verify_roundtrip (pbkdf2 : String → String → String)
    (password fresh salt pw_hash : String)
    (h : hash_password pbkdf2 password none fresh = (salt, pw_hash)) :
    verify_password pbkdf2 password salt pw_hash = true := by
  unfold hash_password at h
  simp only [Option.getD_none] at h
  obtain ⟨hsalt, hhash⟩ := Prod.mk.injEq _ _ _ _ ▸ h
  subst hsalt
  subst hhash
  simp [verify_password, hash_password, compare_digest]

theorem hash_verify_roundtrip_witness :
    verify_password (fun p s => p ++ s) "pw" "abc" "pwabc" = true :=
  hash_verify_roundtrip (fun p s => p ++ s) "pw" "abc" "abc" "pwabc" rfl

theorem mem_foodCandidates (grid_h grid_w : ℤ) (occupied : List (ℤ × ℤ))
    (x : ℤ × ℤ) :
    x ∈ foodCandidates grid_h grid_w occupied ↔
      0 ≤ x.1 ∧ x.1 < grid_h ∧ 0 ≤ x.2 ∧ x.2 < grid_w ∧ x ∉ occupied := by
  unfold foodCandidates
  constructor
  · intro hx
    rw [List.mem_filter] at hx
    obtain ⟨hmem, hpred⟩ := hx
    rw [List.mem_flatMap] at hmem
    obtain ⟨r, hr, hmap⟩ := hmem
    rw [List.mem_map] at hmap
    obtain ⟨c, hc, hx⟩ := hmap
    rw [List.mem_range] at hr
    rw [List.mem_range] at hc
    subst hx
    have hocc : ((r : ℤ), (c : ℤ)) ∉ occupied := by simpa using hpred
    refine ⟨?_, ?_, ?_, ?_, hocc⟩
    · show (0 : ℤ) ≤ (r : ℤ)
      omega
    · show (r : ℤ) < grid_h
      omega
    · show (0 : ℤ) ≤ (c : ℤ)
      omega
    · show (c : ℤ) < grid_w
      omega
  · rintro ⟨h1, h2, h3, h4, h5⟩
    rw [List.mem_filter]
    refine ⟨?_, by simpa using h5⟩
    rw [List.mem_flatMap]
    refine ⟨x.1.toNat, ?_, ?_⟩
    · rw [List.mem_range]
      omega
    · rw [List.mem_map]
      refine ⟨x.2.toNat, ?_, ?_⟩
      · rw [List.mem_range]
        omega
      · have e1 : ((x.1.toNat : ℤ)) = x.1 := by omega
        have e2 : ((x.2.toNat : ℤ)) = x.2 := by omega
        rw [e1, e2]

/-- C10: `new_food` returns none iff every cell of the grid is occupied;
otherwise it returns a point inside the grid that is not occupied — food is
never placed on the snake. -/
theorem new_food_spec (grid_h grid_w : ℤ) (occupied : List (ℤ × ℤ)) (k : ℕ) :
    (new_food grid_h grid_w occupied k = none ↔
      ∀ r c : ℤ, 0 ≤ r → r < grid_h → 0 ≤ c → c < grid_w → (r, c) ∈ occupied) ∧
    (∀ pt : SPoint, new_food grid_h grid_w occupied k = some pt →
      0 ≤ pt.r ∧ pt.r < grid_h ∧ 0 ≤ pt.c ∧ pt.c < grid_w ∧
        (pt.r, pt.c) ∉ occupied) := by
  constructor
  · constructor
    · intro hnone r c hr0 hr1 hc0 hc1
      by_contra hocc
      have hmem : ((r, c) : ℤ × ℤ) ∈ foodCandidates grid_h grid_w occupied :=
        (mem_foodCandidates grid_h grid_w occupied (r, c)).mpr
          ⟨hr0, hr1, hc0, hc1, hocc⟩
      unfold new_food at hnone
      by_cases hc : foodCandidates grid_h grid_w occupied = []
      · rw [hc] at hmem
        exact absurd hmem (List.not_mem_nil _)
      · rw [if_neg hc] at hnone
        simp at hnone
    · intro hall
      unfold new_food
      rw [if_pos]
      cases hcand : foodCandidates grid_h grid_w occupied with
      | nil => rfl
      | cons y ys =>
        exfalso
        have hy : y ∈ foodCandidates grid_h grid_w occupied := by
          rw [hcand]; exact List.mem_cons_self y ys
        obtain ⟨h1, h2, h3, h4, h5⟩ :=
          (mem_foodCandidates grid_h grid_w occupied y).mp hy
        exact h5 (by simpa using hall y.1 y.2 h1 h2 h3 h4)
  · intro pt hpt
    unfold new_food at hpt
    by_cases hc : foodCandidates grid_h grid_w occupied = []
    · rw [if_pos hc] at hpt
      simp at hpt
    · rw [if_neg hc] at hpt
      have hlen : 0 < (foodCandidates grid_h grid_w occupied).length :=
        List.length_pos.mpr hc
      have hidx : k % (foodCandidates grid_h grid_w occupied).length <
          (foodCandidates grid_h grid_w occupied).length := Nat.mod_lt k hlen
      have hmem : (foodCandidates grid_h grid_w occupied).getD
          (k % (foodCandidates grid_h grid_w occupied).length) (0, 0) ∈
          foodCandidates grid_h grid_w occupied := by
        rw [List.getD_eq_getElem?_getD, List.getElem?_eq_getElem hidx]
        exact List.getElem_mem hidx
      obtain ⟨h1, h2, h3, h4, h5⟩ :=
        (mem_foodCandidates grid_h grid_w occupied _).mp hmem
      rw [Option.some_inj] at hpt
      rw [← hpt]
      exact ⟨h1, h2, h3, h4, by simpa using h5⟩

theorem new_food_spec_witness :
    new_food 2 2 [(0, 0)] 0 = some ⟨0, 1⟩ ∧
    (0 ≤ (⟨0, 1⟩ : SPoint).r ∧ (⟨0, 1⟩ : SPoint).r < 2 ∧
      0 ≤ (⟨0, 1⟩ : SPoint).c ∧ (⟨0, 1⟩ : SPoint).c < 2 ∧
      ((⟨0, 1⟩ : SPoint).r, (⟨0, 1⟩ : SPoint).c) ∉ ([(0, 0)] : List (ℤ × ℤ))) :=
  ⟨by decide, (new_food_spec 2 2 [(0, 0)] 0).2 ⟨0, 1⟩ (by decide)⟩

end BeachClean
